import Mathlib

/-!
# netunicorn — verification of spec claims against the repository

Shallow embedding of the netunicorn director's data model and control
operations.  The repository ships its relational schema
(`dbdeploy.sql`: tables `Experiments`, `Locks`, `Compilations`,
`Executors`, `Flags`), design documents and executed example notebooks;
the Python service bodies (mediator, processor, gateway, executor) are
not part of the source tree, so the operations below are modelled from
the specification where so marked, while the table shapes, key
constraints and column defaults are taken directly from the SQL schema.
-/

namespace Netunicorn

/-! ## Experiment lifecycle (spec §4.7, §4.8; `Experiments.status` column) -/

/-- Experiment lifecycle status, as displayed by the client in the example
notebooks (`PREPARING`, `READY`, `RUNNING`, `FINISHED`) together with the
initial `CREATED` state of a freshly submitted experiment. -/
inductive ExperimentStatus where
  | CREATED
  | PREPARING
  | READY
  | RUNNING
  | FINISHED
deriving DecidableEq, Repr

/-- Position of a status in the lifecycle order
`CREATED < PREPARING < READY < RUNNING < FINISHED`. -/
def statusRank : ExperimentStatus → Nat
  | .CREATED => 0
  | .PREPARING => 1
  | .READY => 2
  | .RUNNING => 3
  | .FINISHED => 4

/-- Modelled from the spec: the status transitions performed by the mediator
and the experiment processor (the processor/mediator service bodies are not
in the source tree).  `prepare` moves `CREATED → PREPARING`; the processor
moves `PREPARING → READY` when every deployment settled, or straight to
`FINISHED` when every deployment failed compilation; `start` moves
`READY → RUNNING`; the processor moves `RUNNING → FINISHED` when every
executor finished or timed out; `cancel` moves any non-terminal experiment
to `FINISHED` with a cancel marker. -/
inductive ExpStep : ExperimentStatus → ExperimentStatus → Prop where
  | prepare : ExpStep .CREATED .PREPARING
  | allPrepared : ExpStep .PREPARING .READY
  | allCompilationsFailed : ExpStep .PREPARING .FINISHED
  | start : ExpStep .READY .RUNNING
  | allExecutorsDone : ExpStep .RUNNING .FINISHED
  | cancel : ∀ s, s ≠ .FINISHED → ExpStep s .FINISHED

/-- A trace of statuses an experiment takes on, starting at a given status:
the list of states visited along consecutive `ExpStep` transitions. -/
inductive StatusTrace : ExperimentStatus → List ExperimentStatus → Prop where
  | single : ∀ s, StatusTrace s [s]
  | cons : ∀ s s' l, ExpStep s s' → StatusTrace s' l → StatusTrace s (s :: l)

/-- The status sequence of an experiment over its lifetime: a trace starting
at `CREATED` (the status written when the experiment is submitted). -/
def ExperimentTrace (l : List ExperimentStatus) : Prop :=
  StatusTrace .CREATED l

/-- The full lifecycle chain named by the spec. -/
def statusChain : List ExperimentStatus :=
  [.CREATED, .PREPARING, .READY, .RUNNING, .FINISHED]

/-! ## Flags (table `Flags`, spec §4.9)

The SQL schema (`dbdeploy.sql`) declares
`Flags(experiment_id, key, text_value TEXT, int_value INT NOT NULL DEFAULT 0,
PRIMARY KEY (experiment_id, key))`.  Columns that SQL allows to be null are
modelled as `Option`; the `NOT NULL DEFAULT 0` constraint on `int_value` is
modelled at row creation and proved invariant over all reachable states. -/

/-- A row of the `Flags` table.  `int_value` is carried as `Option Int` so
that the schema's `NOT NULL` constraint is a provable invariant rather than
a typing assumption. -/
structure FlagRow where
  experiment_id : String
  key : String
  text_value : Option String
  int_value : Option Int
deriving DecidableEq, Repr

/-- Row creation for the `Flags` table: the SQL column default
`int_value INT NOT NULL DEFAULT 0` fills in `0` when no integer value is
supplied. -/
def mkFlagRow (eid k : String) (t : Option String) (i : Option Int) : FlagRow :=
  { experiment_id := eid, key := k, text_value := t, int_value := some (i.getD 0) }

/-- Look up the flag row keyed `(eid, k)` (the table's primary key). -/
def findFlag (table : List FlagRow) (eid k : String) : Option FlagRow :=
  table.find? (fun r => r.experiment_id == eid && r.key == k)

/-- Modelled from the spec: `set(t, i)` overwrites both fields atomically,
a null field meaning "leave unchanged" (spec §4.9); on a missing row it
inserts one, the SQL default supplying `int_value = 0` when `i` is null. -/
def flagSet (eid k : String) (t : Option String) (i : Option Int)
    (table : List FlagRow) : List FlagRow :=
  match findFlag table eid k with
  | none => table ++ [mkFlagRow eid k t i]
  | some _ =>
    table.map (fun r =>
      if r.experiment_id == eid && r.key == k then
        { r with
          text_value := match t with | some t' => some t' | none => r.text_value,
          int_value := match i with | some i' => some i' | none => r.int_value }
      else r)

/-- Modelled from the spec: atomic increment of `int_value` under the row
lock (spec §4.9); on a missing row the update matches no row. -/
def flagInc (eid k : String) (table : List FlagRow) : List FlagRow :=
  table.map (fun r =>
    if r.experiment_id == eid && r.key == k then
      { r with int_value := r.int_value.map (· + 1) }
    else r)

/-- Modelled from the spec: atomic decrement of `int_value` under the row
lock (spec §4.9); on a missing row the update matches no row. -/
def flagDec (eid k : String) (table : List FlagRow) : List FlagRow :=
  table.map (fun r =>
    if r.experiment_id == eid && r.key == k then
      { r with int_value := r.int_value.map (· - 1) }
    else r)

/-- One flag-engine operation applied to the `Flags` table. -/
inductive FlagsStep : List FlagRow → List FlagRow → Prop where
  | set : ∀ table eid k t i, FlagsStep table (flagSet eid k t i table)
  | inc : ∀ table eid k, FlagsStep table (flagInc eid k table)
  | dec : ∀ table eid k, FlagsStep table (flagDec eid k table)

/-- Reachable states of the `Flags` table: the empty table, closed under
flag-engine operations. -/
inductive FlagsReachable : List FlagRow → Prop where
  | init : FlagsReachable []
  | step : ∀ s s', FlagsReachable s → FlagsStep s s' → FlagsReachable s'

/-- The single-flag counter operations of claim C4: increments and
decrements serialized into some order by the per-row lock. -/
inductive CounterOp where
  | inc
  | dec
deriving DecidableEq, Repr

/-- Apply one serialized counter operation to a flag row (the per-row image
of `flagInc` / `flagDec`). -/
def applyCounterOp (op : CounterOp) (r : FlagRow) : FlagRow :=
  match op with
  | .inc => { r with int_value := r.int_value.map (· + 1) }
  | .dec => { r with int_value := r.int_value.map (· - 1) }

/-- Apply a serialized sequence of counter operations to a flag row. -/
def applyCounterOps (ops : List CounterOp) (r : FlagRow) : FlagRow :=
  ops.foldl (fun acc op => applyCounterOp op acc) r

/-! ## Executor: task results and the pipeline interpreter (spec §4.6, §9)

The executor agent's Python body is not in the source tree; the result
wrapping and stage interpretation below are modelled from the spec
(§4.6 steps 3–4, §9 "Result sum type") and from the `Task` class
documentation captured in the tasks notebook. -/

/-- A value produced by a task's `run` method.  `ok` and `err` are the two
arms of the tagged `Result` union; `obj` stands for any other (non-tagged)
object, carried opaquely. -/
inductive PyObj where
  | obj : String → PyObj
  | ok : PyObj → PyObj
  | err : String → PyObj
deriving DecidableEq, Repr

/-- Whether a value is already of the tagged `Ok|Err` (Result) form. -/
def PyObj.isResult : PyObj → Bool
  | .obj _ => false
  | .ok _ => true
  | .err _ => true

/-- Whether a recorded result is the `Ok` arm. -/
def PyObj.isOk : PyObj → Bool
  | .ok _ => true
  | _ => false

/-- The observable behaviour of one invocation of a task's `run` method:
it either returns a value or raises an exception, the latter carried by
its textual description. -/
inductive RunOutcome where
  | returns : PyObj → RunOutcome
  | raises : String → RunOutcome
deriving DecidableEq, Repr

/-- Modelled from the spec: the executor's recording of one task's outcome
(`Task` class documentation; spec §4.6 step 3).  A `run` returning a value
already of the tagged Result form is recorded unchanged; any other returned
value is wrapped as `Ok`; a raised exception is recorded as `Err` of its
textual description. -/
def recordTaskResult : RunOutcome → PyObj
  | .returns v => if v.isResult then v else .ok v
  | .raises e => .err e

/-- Run one stage: every task of the stage settles, and its recorded
results are collected (spec §4.6 step 3). -/
def runStage (stage : List RunOutcome) : List PyObj :=
  stage.map recordTaskResult

/-- A stage is passing when every task of the stage ended `Ok`
(spec §4.6 step 4). -/
def stagePassing (stage : List RunOutcome) : Bool :=
  (runStage stage).all PyObj.isOk

/-- Modelled from the spec: the executor's pipeline interpreter (§4.6
steps 3–4).  Stages are interpreted in order; after a stage in which some
task ended `Err`, subsequent stages are skipped; the pipeline result is the
accumulated per-task results of the stages that ran. -/
def executePipeline : List (List RunOutcome) → List PyObj
  | [] => []
  | stage :: rest =>
    if stagePassing stage then runStage stage ++ executePipeline rest
    else runStage stage

/-- Number of stages the spec says are executed: through the first stage
with an `Err` task inclusive, or all stages when every stage passes.
This definition follows the claim's words, for comparison with
`executePipeline`. -/
def executedStageCount (stages : List (List RunOutcome)) : Nat :=
  match stages.findIdx? (fun st => !stagePassing st) with
  | some k => k + 1
  | none => stages.length

/-- The pipeline result described by the claim: the accumulated per-task
results of stages 1 through the first failing stage inclusive (or of all
stages when none fails).  This definition follows the claim's words, for
comparison with `executePipeline`. -/
def pipelineResultSpec (stages : List (List RunOutcome)) : List PyObj :=
  ((stages.take (executedStageCount stages)).map runStage).flatten

/-! ## Node locks (table `Locks`, spec §3, §4.1, §4.4, §7)

The SQL schema declares `Locks(node_name, connector, username,
PRIMARY KEY (node_name, connector))`.  The table is modelled as a row
list; the primary-key constraint (at most one row per `(node_name,
connector)`) is proved invariant rather than assumed. -/

/-- A row of the `Locks` table; `username` is nullable in the schema. -/
structure LockRow where
  node_name : String
  connector : String
  username : Option String
deriving DecidableEq, Repr

/-- The primary key of a lock row. -/
def LockRow.key (r : LockRow) : String × String :=
  (r.node_name, r.connector)

/-- Look up the lock row for a `(node_name, connector)` key. -/
def findLock (locks : List LockRow) (k : String × String) : Option LockRow :=
  locks.find? (fun r => r.node_name == k.1 && r.connector == k.2)

/-- Whether some lock row exists for the key: the node is locked
(spec §3: a node is owned by at most one experiment at a time, ownership
transferred by deletion; §7.4: a node that is already locked is a
conflict for `prepare`). -/
def isLocked (locks : List LockRow) (k : String × String) : Bool :=
  (findLock locks k).isSome

/-- The primary-key constraint of the `Locks` table: no two rows share a
`(node_name, connector)` key. -/
def lockKeysNodup (locks : List LockRow) : Prop :=
  (locks.map LockRow.key).Nodup

/-- Modelled from the spec: the sequential body of `claim_locks`
(spec §4.1, §4.4).  Requested keys are visited in order; a key that
already has a lock row is collected as a conflict, a free key is inserted
with the caller as holder and remembered as newly acquired.  Returns
`(conflicts, acquired, locks)`. -/
def claimLocksGo (u : String) :
    List (String × String) → List LockRow → List (String × String) →
    List (String × String) →
    List (String × String) × List (String × String) × List LockRow
  | [], locks, acquired, conflicts => (conflicts, acquired, locks)
  | k :: rest, locks, acquired, conflicts =>
    if isLocked locks k then claimLocksGo u rest locks acquired (conflicts ++ [k])
    else
      claimLocksGo u rest (locks ++ [⟨k.1, k.2, some u⟩]) (acquired ++ [k]) conflicts

/-- Delete the lock rows whose key lies in `keys` (ownership is
transferred by deletion, spec §3). -/
def releaseKeys (keys : List (String × String)) (locks : List LockRow) :
    List LockRow :=
  locks.filter (fun r => decide (r.key ∉ keys))

/-- Modelled from the spec: atomic `claim_locks(username, [(node,
connector)])` that either grants all requested locks or none, returning
the conflicting keys (spec §4.1); on partial failure it releases any
locks it took (spec §4.4).  Returns `(conflicts, locks)`; an empty
conflict list means every lock was granted. -/
def claim_locks (u : String) (reqs : List (String × String))
    (locks : List LockRow) : List (String × String) × List LockRow :=
  match claimLocksGo u reqs locks [] [] with
  | (conflicts, acquired, locks') =>
    if conflicts.isEmpty then ([], locks')
    else (conflicts, releaseKeys acquired locks')

/-- The rows inserted for a list of freshly granted keys, all held by `u`. -/
def freshRows (u : String) (ks : List (String × String)) : List LockRow :=
  ks.map (fun k => ⟨k.1, k.2, some u⟩)

/-- The caller `u` holds a lock row for key `k` in the table. -/
def heldBy (locks : List LockRow) (k : String × String) (u : String) : Prop :=
  (⟨k.1, k.2, some u⟩ : LockRow) ∈ locks

/-! ## Compilations (table `Compilations`, spec §3, §4.3)

The SQL schema declares `Compilations(experiment_id, compilation_id,
status, result, architecture, pipeline, environment_definition,
PRIMARY KEY (experiment_id, compilation_id))`. -/

/-- A row of the `Compilations` table. -/
structure CompilationRow where
  experiment_id : String
  compilation_id : String
  status : Option Bool
  result : Option String
  architecture : String
  pipeline : String
  environment_definition : String
deriving DecidableEq, Repr

/-- The primary key of a compilation row. -/
def CompilationRow.key (r : CompilationRow) : String × String :=
  (r.experiment_id, r.compilation_id)

/-- One per-node deployment of an experiment: the fields relevant to
compilation fan-out (spec §3 "Deployment", §4.3). -/
structure Deployment where
  node_name : String
  connector : String
  environment_definition : String
  pipeline : String
  architecture : String
deriving DecidableEq, Repr

/-- Modelled from the spec: `compilation_id` is a hash of
environment + pipeline + architecture (spec §3 "Compilation"); the
compilation service is not in the source tree, so the digest is modelled
as the concatenation of the three components — only its determinism (equal
triples give equal ids) is relied upon. -/
def compilation_id_of (env pip arch : String) : String :=
  env ++ pip ++ arch

/-- The compilation row enqueued for one deployment of an experiment:
keyed by the experiment id and the fingerprint of the deployment's
environment definition, pipeline blob and architecture. -/
def mkCompilationRow (eid : String) (d : Deployment) : CompilationRow :=
  { experiment_id := eid,
    compilation_id :=
      compilation_id_of d.environment_definition d.pipeline d.architecture,
    status := none, result := none, architecture := d.architecture,
    pipeline := d.pipeline, environment_definition := d.environment_definition }

/-- Whether the table holds a row with the given `(experiment_id,
compilation_id)` key. -/
def hasCompKey (table : List CompilationRow) (k : String × String) : Bool :=
  table.any (fun r => r.experiment_id == k.1 && r.compilation_id == k.2)

/-- Insert a compilation row unless a row with its primary key already
exists: deployments with the same environment fingerprint share one
compilation row (spec §3). -/
def insertCompilation (table : List CompilationRow) (row : CompilationRow) :
    List CompilationRow :=
  if hasCompKey table row.key then table else table ++ [row]

/-- Modelled from the spec: the mediator's `prepare` fan-out enqueues one
compilation per distinct environment fingerprint of the experiment's
deployments (spec §2 data flow, §4.3, §4.8). -/
def enqueueCompilations (eid : String) (deps : List Deployment)
    (table : List CompilationRow) : List CompilationRow :=
  deps.foldl (fun t d => insertCompilation t (mkCompilationRow eid d)) table

/-- Number of rows of the table carrying the given primary key. -/
def countCompKey (table : List CompilationRow) (k : String × String) : Nat :=
  (table.filter
    (fun r => r.experiment_id == k.1 && r.compilation_id == k.2)).length

/-! ## Executor records (table `Executors`, spec §3, §4.5, §4.7)

The SQL schema declares `Executors(experiment_id, executor_id, node_name,
connector, pipeline, result, keepalive, error, finished, state,
PRIMARY KEY (experiment_id, executor_id))`. -/

/-- A row of the `Executors` table (the columns the claims touch). -/
structure ExecutorRow where
  experiment_id : String
  executor_id : Nat
  node_name : String
  connector : String
  finished : Bool
deriving DecidableEq, Repr

/-- The executor-record portion of the director's state.  Modelled from
the spec: `executor_id` is generated server-side at experiment start
(spec §3 invariant (b)); the generator is modelled as a monotone fresh-id
counter standing for the server's unique-id source, and clients supply no
ids. -/
structure ExecutorsState where
  nextId : Nat
  executors : List ExecutorRow
deriving DecidableEq, Repr

/-- The empty executor state: no records, counter at zero. -/
def ExecutorsState.init : ExecutorsState := ⟨0, []⟩

/-- Operations that touch executor records: the infrastructure service
creates a record with a server-generated fresh id at experiment start
(spec §4.7 `READY → RUNNING`); the gateway marks a record finished when
its result is posted (spec §4.5); ids are never rewritten. -/
inductive ExecutorsStep : ExecutorsState → ExecutorsState → Prop where
  | createExecutor : ∀ s eid node conn,
      ExecutorsStep s
        ⟨s.nextId + 1, s.executors ++ [⟨eid, s.nextId, node, conn, false⟩]⟩
  | postResult : ∀ s i,
      ExecutorsStep s
        ⟨s.nextId,
         s.executors.map (fun r =>
           if r.executor_id == i then { r with finished := true } else r)⟩

/-- Reachable executor states: the empty state, closed under the
operations. -/
inductive ExecutorsReachable : ExecutorsState → Prop where
  | init : ExecutorsReachable .init
  | step : ∀ s s', ExecutorsReachable s → ExecutorsStep s s' →
      ExecutorsReachable s'

/-! ## Task prerequisites (spec §3 "Task", tasks notebook)

The tasks notebook shows a pipeline with three instances of a task class
whose `requirements` hold `mkdir /tmp/mydata`, and the executed cell
prints the deployment's command list with the command three times: the
requirements of every task instance are combined independently, with no
deduplication. -/

/-- A task instance as carried in a pipeline: its name and its
`requirements` — shell commands that are environment prerequisites. -/
structure TaskInstance where
  name : String
  requirements : List String
deriving DecidableEq, Repr

/-- All task instances of a pipeline, in stage order. -/
def pipelineTaskInstances (stages : List (List TaskInstance)) :
    List TaskInstance :=
  stages.flatten

/-- Modelled from the spec: the environment prerequisite command list
attached to a deployment is the combination of the `requirements` of every
task instance of the pipeline, each instance contributing independently
(spec §3 "Task"; tasks notebook `WriteToTmp` example). -/
def environmentCommands (stages : List (List TaskInstance)) : List String :=
  (pipelineTaskInstances stages).flatMap (fun t => t.requirements)

/-- The three-instance pipeline of the tasks notebook: three instances of
`WriteToTmp`, whose requirements are `[mkdir /tmp/mydata]`, one per stage. -/
def writeToTmpPipeline : List (List TaskInstance) :=
  [[⟨"WriteToTmp", ["mkdir /tmp/mydata"]⟩],
   [⟨"WriteToTmp", ["mkdir /tmp/mydata"]⟩],
   [⟨"WriteToTmp", ["mkdir /tmp/mydata"]⟩]]

/-! ## The mediator/processor system over experiments and locks
(spec §4.4, §4.7, §4.8)

The experiment-facing operations that touch locks: `prepare` claims every
node of the experiment atomically; the processor releases an
experiment's locks when it enters `FINISHED`.  The service bodies are not
in the source tree, so these operations are modelled from the spec. -/

/-- An experiment as the lock discipline sees it: its id, owner, lifecycle
status, and the `(node_name, connector)` keys of its deployments. -/
structure MExp where
  experiment_id : String
  username : String
  status : ExperimentStatus
  nodes : List (String × String)
deriving DecidableEq, Repr

/-- An experiment is *bound* to its nodes when it has passed `prepare` and
is not yet terminal: its lock claim is outstanding. -/
def MExp.bound (e : MExp) : Prop :=
  e.status = .PREPARING ∨ e.status = .READY ∨ e.status = .RUNNING

/-- The lock-relevant portion of the director's state: the `Locks` table
and the experiments, keyed by experiment id. -/
structure MState where
  locks : List LockRow
  exps : String → Option MExp

/-- Update the experiment map at one id. -/
def setExp (exps : String → Option MExp) (id : String) (e : MExp) :
    String → Option MExp :=
  fun x => if x = id then some e else exps x

/-- The initial director state: no locks, no experiments. -/
def MState.init : MState := ⟨[], fun _ => none⟩

/-- Modelled from the spec: the operations of the mediator, infrastructure
service and processor that touch experiments and locks (spec §4.4, §4.7,
§4.8).  `submit` persists a `CREATED` experiment; `prepare` atomically
claims every node of the experiment and moves it to `PREPARING` (a failed
claim changes nothing); `allPrepared` and `start` advance the status
without touching locks; `finishRelease` moves a prepared, non-terminal
experiment to `FINISHED` and releases all its locks; `cancelCreated`
terminates a never-prepared experiment, which holds no locks. -/
inductive MStep : MState → MState → Prop where
  | submit : ∀ s id u nodes, s.exps id = none →
      MStep s ⟨s.locks, setExp s.exps id ⟨id, u, .CREATED, nodes⟩⟩
  | prepare : ∀ s id e locks', s.exps id = some e → e.status = .CREATED →
      claim_locks e.username e.nodes s.locks = ([], locks') →
      MStep s ⟨locks', setExp s.exps id { e with status := .PREPARING }⟩
  | allPrepared : ∀ s id e, s.exps id = some e → e.status = .PREPARING →
      MStep s ⟨s.locks, setExp s.exps id { e with status := .READY }⟩
  | start : ∀ s id e, s.exps id = some e → e.status = .READY →
      MStep s ⟨s.locks, setExp s.exps id { e with status := .RUNNING }⟩
  | finishRelease : ∀ s id e, s.exps id = some e →
      e.status ≠ .CREATED → e.status ≠ .FINISHED →
      MStep s ⟨releaseKeys e.nodes s.locks,
               setExp s.exps id { e with status := .FINISHED }⟩
  | cancelCreated : ∀ s id e, s.exps id = some e → e.status = .CREATED →
      MStep s ⟨s.locks, setExp s.exps id { e with status := .FINISHED }⟩

/-- Reachable director states: the initial state, closed under the
operations. -/
inductive MReachable : MState → Prop where
  | init : MReachable .init
  | step : ∀ s s', MReachable s → MStep s s' → MReachable s'

/-- The lock-exclusivity invariant: (pk) the `Locks` table respects its
primary key — at most one row per `(node_name, connector)`; (covered)
every node of a bound experiment has a lock row; (exclusive) a node key
belongs to the node set of at most one bound experiment. -/
structure LocksExclusive (s : MState) : Prop where
  pk : lockKeysNodup s.locks
  covered : ∀ id e, s.exps id = some e → e.bound →
    ∀ k ∈ e.nodes, isLocked s.locks k = true
  exclusive : ∀ id₁ id₂ e₁ e₂ k, s.exps id₁ = some e₁ →
    s.exps id₂ = some e₂ → e₁.bound → e₂.bound →
    k ∈ e₁.nodes → k ∈ e₂.nodes → id₁ = id₂

/-! ## Theorems -/

/-- C4: for every flag with a defined initial integer value `v` and every
serialized interleaving of increments and decrements (`N` increments and
`M` decrements in any order), the final `int_value` is `v + N − M`. -/
theorem flag_counter_interleaving (ops : List CounterOp) (r : FlagRow)
    (v : Int) (h : r.int_value = some v) :
    (applyCounterOps ops r).int_value =
      some (v + (ops.count .inc : Int) - (ops.count .dec : Int)) := by
  induction ops generalizing r v with
  | nil => simpa [applyCounterOps] using h
  | cons op rest ih =>
    cases op with
    | inc =>
      have hstep : (applyCounterOp .inc r).int_value = some (v + 1) := by
        simp [applyCounterOp, h]
      have := ih (applyCounterOp .inc r) (v + 1) hstep
      simp only [applyCounterOps, List.foldl_cons] at *
      rw [this]
      simp [List.count_cons]
      ring_nf
    | dec =>
      have hstep : (applyCounterOp .dec r).int_value = some (v - 1) := by
        simp [applyCounterOp, h]
      have := ih (applyCounterOp .dec r) (v - 1) hstep
      simp only [applyCounterOps, List.foldl_cons] at *
      rw [this]
      simp [List.count_cons]
      ring_nf

/-- Witness for C4 at a concrete flag and interleaving. -/
theorem flag_counter_interleaving_witness :
    (applyCounterOps [.inc, .inc, .dec, .inc]
        (mkFlagRow "exp" "barrier" none (some 5))).int_value =
      some (5 + (([CounterOp.inc, .inc, .dec, .inc]).count .inc : Int) -
        (([CounterOp.inc, .inc, .dec, .inc]).count .dec : Int)) :=
  flag_counter_interleaving [.inc, .inc, .dec, .inc]
    (mkFlagRow "exp" "barrier" none (some 5)) 5 rfl

/-- C5: the executor records a task's `run` outcome as follows — a value
already of the tagged `Ok|Err` form is recorded unchanged, any other value
is wrapped as `Ok`, a raised exception is recorded as `Err` of its textual
description; consequently every recorded per-task result is of the tagged
`Ok|Err` form. -/
theorem task_result_wrapping :
    (∀ v : PyObj, v.isResult = true → recordTaskResult (.returns v) = v) ∧
    (∀ v : PyObj, v.isResult = false →
      recordTaskResult (.returns v) = .ok v) ∧
    (∀ e : String, recordTaskResult (.raises e) = .err e) ∧
    (∀ o : RunOutcome, (recordTaskResult o).isResult = true) := by
  refine ⟨fun v h => by simp [recordTaskResult, h],
    fun v h => by simp [recordTaskResult, h],
    fun e => rfl, fun o => ?_⟩
  cases o with
  | returns v => cases v <;> simp [recordTaskResult, PyObj.isResult]
  | raises e => rfl

/-- Witness for C5 at concrete outcomes: a tagged `Err` passes through
unchanged, a plain value is wrapped as `Ok`, and a raised exception is
recorded as a tagged result. -/
theorem task_result_wrapping_witness :
    recordTaskResult (.returns (.err "connection refused")) =
        .err "connection refused" ∧
    recordTaskResult (.returns (.obj "42")) = .ok (.obj "42") ∧
    (recordTaskResult
        (.raises "ZeroDivisionError: division by zero")).isResult = true :=
  ⟨task_result_wrapping.1 (.err "connection refused") rfl,
   task_result_wrapping.2.1 (.obj "42") rfl,
   task_result_wrapping.2.2.2 (.raises "ZeroDivisionError: division by zero")⟩

/-- C9: the deployment's environment command list combines the
requirements of every task instance independently — the number of
occurrences of a command is the sum of its occurrences in each instance's
requirements (so `n` instances contributing a command once each yield `n`
copies, with no deduplication) — and on the notebook's three-instance
pipeline the command appears three times. -/
theorem requirements_no_dedup :
    (∀ (stages : List (List TaskInstance)) (c : String),
      (environmentCommands stages).count c =
        ((pipelineTaskInstances stages).map
          (fun t => t.requirements.count c)).sum) ∧
    environmentCommands writeToTmpPipeline =
      ["mkdir /tmp/mydata", "mkdir /tmp/mydata", "mkdir /tmp/mydata"] := by
  constructor
  · intro stages c
    rw [environmentCommands]
    generalize pipelineTaskInstances stages = ts
    induction ts with
    | nil => simp
    | cons t rest ih => simp [List.flatMap_cons, List.count_append, ih]
  · rfl

/-- C1 (counterexample): the status sequence of an experiment is not
always a prefix of `CREATED → PREPARING → READY → RUNNING → FINISHED`: an
experiment all of whose deployments fail compilation goes straight from
`PREPARING` to `FINISHED` (spec §4.7), so the trace
`[CREATED, PREPARING, FINISHED]` occurs and is not a prefix of the chain. -/
theorem status_sequence_not_always_chain_head :
    ExperimentTrace [.CREATED, .PREPARING, .FINISHED] ∧
    ¬ ∃ t, [ExperimentStatus.CREATED, .PREPARING, .FINISHED] ++ t =
      statusChain := by
  constructor
  · exact .cons _ _ _ .prepare (.cons _ _ _ .allCompilationsFailed (.single _))
  · rintro ⟨t, h⟩
    simp [statusChain] at h

/-- C1 (amended): every mediator/processor transition strictly increases
the status in the lifecycle order `CREATED < PREPARING < READY < RUNNING <
FINISHED` — so no operation ever moves an experiment's status backwards or
holds it in place — and `FINISHED` is absorbing: no transition leaves it.
(The progression is a subsequence, not necessarily a prefix, of the chain:
total compilation failure and cancellation jump forward to `FINISHED`.) -/
theorem experiment_status_monotone :
    (∀ s s', ExpStep s s' → statusRank s < statusRank s') ∧
    (∀ s, ¬ ExpStep .FINISHED s) := by
  constructor
  · intro s s' h
    cases h with
    | prepare => decide
    | allPrepared => decide
    | allCompilationsFailed => decide
    | start => decide
    | allExecutorsDone => decide
    | cancel s hne =>
      cases s with
      | CREATED => decide
      | PREPARING => decide
      | READY => decide
      | RUNNING => decide
      | FINISHED => exact absurd rfl hne
  · intro s h
    cases h with
    | cancel _ hne => exact absurd rfl hne

/-- Witness for the amended C1 at a concrete transition. -/
theorem experiment_status_monotone_witness :
    statusRank .CREATED < statusRank .PREPARING :=
  experiment_status_monotone.1 _ _ ExpStep.prepare

/-- C6: the executor interprets stages in order; the pipeline result is
exactly the accumulated per-task results of the stages up to and
including the first stage in which some task ended `Err` (stages after it
are not executed), and when every task of every stage ends `Ok`, all
stages run. -/
theorem pipeline_stage_semantics (stages : List (List RunOutcome)) :
    executePipeline stages = pipelineResultSpec stages ∧
    ((∀ st ∈ stages, stagePassing st = true) →
      executePipeline stages = (stages.map runStage).flatten) := by
  constructor
  · induction stages with
    | nil => rfl
    | cons st rest ih =>
      by_cases h : stagePassing st = true
      · have hcount : executedStageCount (st :: rest) =
            executedStageCount rest + 1 := by
          simp only [executedStageCount, List.findIdx?_cons, h,
            Bool.not_true, List.length_cons]
          cases hfind : rest.findIdx? (fun s => !stagePassing s) <;>
            simp [hfind, Nat.add_comm]
        simp only [executePipeline, h, hcount, pipelineResultSpec,
          List.take_succ_cons, List.map_cons, List.flatten_cons,
          eq_self_iff_true, if_true]
        rw [ih]
        rfl
      · have h' : stagePassing st = false := by
          cases hv : stagePassing st
          · rfl
          · exact absurd hv h
        have hcount : executedStageCount (st :: rest) = 1 := by
          simp [executedStageCount, List.findIdx?_cons, h']
        simp [executePipeline, h', hcount, pipelineResultSpec]
  · intro hall
    induction stages with
    | nil => rfl
    | cons st rest ih =>
      have hst : stagePassing st = true := hall st (by simp)
      simp only [executePipeline, hst, if_true, List.map_cons,
        List.flatten_cons]
      rw [ih (fun s hs => hall s (by simp [hs]))]

/-- Witness for C6 at a concrete pipeline: the second stage raises, so the
third stage is skipped and the result accumulates stages one and two. -/
theorem pipeline_stage_semantics_witness :
    executePipeline
        [[.returns (.obj "capture started")],
         [.raises "ping failed"],
         [.returns (.obj "upload")]] =
      pipelineResultSpec
        [[.returns (.obj "capture started")],
         [.raises "ping failed"],
         [.returns (.obj "upload")]] ∧
    executePipeline [[.returns (.obj "a")], [.returns (.obj "b")]] =
      ([[RunOutcome.returns (.obj "a")],
        [RunOutcome.returns (.obj "b")]].map runStage).flatten :=
  ⟨(pipeline_stage_semantics _).1,
   (pipeline_stage_semantics _).2 (by decide)⟩

/-- A map over flag rows that sends a defined `int_value` to a defined
`int_value` preserves definedness over the whole table. -/
theorem flagRow_defined_map (s : List FlagRow) (f : FlagRow → FlagRow)
    (hf : ∀ r : FlagRow, (∃ n : Int, r.int_value = some n) →
      ∃ n : Int, (f r).int_value = some n)
    (ih : ∀ r ∈ s, ∃ n : Int, r.int_value = some n) :
    ∀ r ∈ s.map f, ∃ n : Int, r.int_value = some n := by
  intro r hr
  obtain ⟨a, ha, rfl⟩ := List.mem_map.mp hr
  exact hf a (ih a ha)

/-- C10: in every reachable state of the `Flags` table, every row has a
defined (non-null) integer `int_value` — so increments, decrements and
reads always see a defined counter — and a row created without an explicit
integer value gets the schema's default `int_value = 0`. -/
theorem flags_int_value_total :
    (∀ s, FlagsReachable s → ∀ r ∈ s, ∃ n : Int, r.int_value = some n) ∧
    (∀ eid k t, (mkFlagRow eid k t none).int_value = some 0) := by
  constructor
  · intro s h
    induction h with
    | init => intro r hr; cases hr
    | step s s' hr hstep ih =>
      cases hstep with
      | set eid k t i =>
        cases hfind : findFlag s eid k with
        | none =>
          intro r hrm
          rw [flagSet, hfind] at hrm
          rcases List.mem_append.mp hrm with h₁ | h₂
          · exact ih r h₁
          · have : r = mkFlagRow eid k t i := List.mem_singleton.mp h₂
            exact ⟨i.getD 0, by simp [this, mkFlagRow]⟩
        | some row =>
          rw [flagSet, hfind]
          refine flagRow_defined_map s _ ?_ ih
          intro r ⟨n, hn⟩
          by_cases hc : (r.experiment_id == eid && r.key == k) = true
          · simp only [hc, if_true]
            cases i with
            | none => exact ⟨n, by simp [hn]⟩
            | some i' => exact ⟨i', by simp⟩
          · simp only [hc]
            exact ⟨n, by simp [hn]⟩
      | inc eid k =>
        rw [flagInc]
        refine flagRow_defined_map s _ ?_ ih
        intro r ⟨n, hn⟩
        by_cases hc : (r.experiment_id == eid && r.key == k) = true
        · exact ⟨n + 1, by simp [hc, hn]⟩
        · exact ⟨n, by simp [hc, hn]⟩
      | dec eid k =>
        rw [flagDec]
        refine flagRow_defined_map s _ ?_ ih
        intro r ⟨n, hn⟩
        by_cases hc : (r.experiment_id == eid && r.key == k) = true
        · exact ⟨n - 1, by simp [hc, hn]⟩
        · exact ⟨n, by simp [hc, hn]⟩
  · intro eid k t
    rfl

/-- Witness for C10 at a concrete reachable one-row table: the row was
created by `set` without an integer value, and its counter is defined. -/
theorem flags_int_value_total_witness :
    ∃ n : Int,
      (mkFlagRow "exp" "clients_control" (some "stage 1") none).int_value =
        some n :=
  flags_int_value_total.1
    (flagSet "exp" "clients_control" (some "stage 1") none [])
    (FlagsReachable.step _ _ FlagsReachable.init
      (FlagsStep.set [] "exp" "clients_control" (some "stage 1") none))
    (mkFlagRow "exp" "clients_control" (some "stage 1") none)
    (by simp [flagSet, findFlag])

/-- Invariant of the executor-record state: every recorded id is below the
fresh-id counter, and the recorded ids are pairwise distinct. -/
theorem executorsStateInvariant (s : ExecutorsState)
    (h : ExecutorsReachable s) :
    (∀ r ∈ s.executors, r.executor_id < s.nextId) ∧
    (s.executors.map ExecutorRow.executor_id).Nodup := by
  induction h with
  | init => exact ⟨fun r hr => absurd hr (List.not_mem_nil r), by simp [ExecutorsState.init]⟩
  | step s s' hr hstep ih =>
    cases hstep with
    | createExecutor eid node conn =>
      constructor
      · intro r hrm
        rcases List.mem_append.mp hrm with h₁ | h₂
        · exact Nat.lt_succ_of_lt (ih.1 r h₁)
        · have heq : r = ⟨eid, s.nextId, node, conn, false⟩ :=
            List.mem_singleton.mp h₂
          rw [heq]
          exact Nat.lt_succ_self _
      · rw [List.map_append, List.nodup_append]
        refine ⟨ih.2, List.nodup_singleton _, ?_⟩
        intro a ha hb
        obtain ⟨r, hrm, hrid⟩ := List.mem_map.mp ha
        have hlt : a < s.nextId := hrid ▸ ih.1 r hrm
        have : a = s.nextId := List.mem_singleton.mp hb
        omega
    | postResult i =>
      have hmap : ((s.executors.map (fun r =>
          if r.executor_id == i then { r with finished := true } else r)).map
            ExecutorRow.executor_id) =
          s.executors.map ExecutorRow.executor_id := by
        rw [List.map_map]
        refine List.map_congr_left ?_
        intro r _
        by_cases hc : (r.executor_id == i) = true <;>
          simp [Function.comp, hc]
      constructor
      · intro r hrm
        obtain ⟨a, ha, rfl⟩ := List.mem_map.mp hrm
        have := ih.1 a ha
        by_cases hc : (a.executor_id == i) = true <;> simp [hc] <;> exact this
      · exact hmap ▸ ih.2

/-- C8: in every reachable state, the executor records — across all
experiments — carry pairwise distinct `executor_id`s: ids are globally
unique, because they are generated server-side from a source that never
repeats (modelled by the fresh-id counter; clients supply no ids). -/
theorem executor_ids_globally_unique (s : ExecutorsState)
    (h : ExecutorsReachable s) :
    (s.executors.map ExecutorRow.executor_id).Nodup :=
  (executorsStateInvariant s h).2

/-- Witness for C8 at a concrete two-experiment reachable state. -/
theorem executor_ids_globally_unique_witness :
    (([⟨"expA", 0, "node1", "docker", false⟩,
       ⟨"expB", 1, "node2", "docker", false⟩] : List ExecutorRow).map
      ExecutorRow.executor_id).Nodup :=
  executor_ids_globally_unique
    ⟨2, [⟨"expA", 0, "node1", "docker", false⟩,
         ⟨"expB", 1, "node2", "docker", false⟩]⟩
    (ExecutorsReachable.step _ _
      (ExecutorsReachable.step _ _ ExecutorsReachable.init
        (ExecutorsStep.createExecutor _ "expA" "node1" "docker"))
      (ExecutorsStep.createExecutor _ "expB" "node2" "docker"))

/-- The row predicate used by the compilation-table operations holds
exactly when the row carries the key. -/
theorem compPred_eq_key (r : CompilationRow) (k : String × String) :
    (r.experiment_id == k.1 && r.compilation_id == k.2) = true ↔ r.key = k := by
  simp [CompilationRow.key, Prod.ext_iff]

/-- A compilation key is absent exactly when its row count is zero. -/
theorem countCompKey_eq_zero_iff (t : List CompilationRow)
    (k : String × String) :
    countCompKey t k = 0 ↔ hasCompKey t k = false := by
  simp [countCompKey, hasCompKey, List.length_eq_zero,
    List.filter_eq_nil_iff, List.any_eq_false]

/-- Row counts add across table concatenation. -/
theorem countCompKey_append (t₁ t₂ : List CompilationRow)
    (k : String × String) :
    countCompKey (t₁ ++ t₂) k = countCompKey t₁ k + countCompKey t₂ k := by
  simp [countCompKey, List.filter_append]

/-- Row count of a one-row table. -/
theorem countCompKey_singleton (r : CompilationRow) (k : String × String) :
    countCompKey [r] k = if r.key = k then 1 else 0 := by
  by_cases h : r.key = k
  · simp [countCompKey, List.filter, (compPred_eq_key r k).mpr h, h]
  · have h' : (r.experiment_id == k.1 && r.compilation_id == k.2) = false := by
      cases hv : (r.experiment_id == k.1 && r.compilation_id == k.2)
      · rfl
      · exact absurd ((compPred_eq_key r k).mp hv) h
    simp [countCompKey, List.filter, h', h]

/-- `insertCompilation` keeps a key's row count at one. -/
theorem insertCompilation_count_preserved (t : List CompilationRow)
    (r : CompilationRow) (k : String × String)
    (h : countCompKey t k = 1) :
    countCompKey (insertCompilation t r) k = 1 := by
  rw [insertCompilation]
  by_cases hh : hasCompKey t r.key = true
  · simp [hh, h]
  · have hh' : hasCompKey t r.key = false := by
      cases hv : hasCompKey t r.key
      · rfl
      · exact absurd hv hh
    simp only [hh', Bool.false_eq_true, if_false]
    rw [countCompKey_append, countCompKey_singleton, h]
    by_cases hk : r.key = k
    · exfalso
      have := (countCompKey_eq_zero_iff t k).mpr (hk ▸ hh')
      omega
    · simp [hk]

/-- `insertCompilation` of a row with a different key keeps an absent key
absent. -/
theorem insertCompilation_count_zero (t : List CompilationRow)
    (r : CompilationRow) (k : String × String)
    (h : countCompKey t k = 0) (hne : r.key ≠ k) :
    countCompKey (insertCompilation t r) k = 0 := by
  rw [insertCompilation]
  by_cases hh : hasCompKey t r.key = true
  · simp [hh, h]
  · have hh' : hasCompKey t r.key = false := by
      cases hv : hasCompKey t r.key
      · rfl
      · exact absurd hv hh
    simp only [hh', Bool.false_eq_true, if_false]
    rw [countCompKey_append, countCompKey_singleton, h]
    simp [hne]

/-- `insertCompilation` of a row with an absent key creates exactly one
row for it. -/
theorem insertCompilation_count_hit (t : List CompilationRow)
    (r : CompilationRow) (k : String × String)
    (h : countCompKey t k = 0) (hk : r.key = k) :
    countCompKey (insertCompilation t r) k = 1 := by
  have hh : hasCompKey t r.key = false :=
    (countCompKey_eq_zero_iff t r.key).mp (by rw [hk]; exact h)
  rw [insertCompilation]
  simp only [hh, Bool.false_eq_true, if_false]
  rw [countCompKey_append, countCompKey_singleton, h]
  simp [hk]

/-- Enqueuing compilations never duplicates a key that already has
exactly one row. -/
theorem enqueue_count_one (eid : String) (k : String × String) :
    ∀ (deps : List Deployment) (t : List CompilationRow),
    countCompKey t k = 1 →
    countCompKey (enqueueCompilations eid deps t) k = 1 := by
  intro deps
  induction deps with
  | nil => intro t h; exact h
  | cons d rest ih =>
    intro t h
    show countCompKey
      (enqueueCompilations eid rest (insertCompilation t (mkCompilationRow eid d))) k = 1
    exact ih _ (insertCompilation_count_preserved t _ k h)

/-- Enqueuing the deployments of an experiment creates exactly one
compilation row for each fingerprint key occurring among them, provided
the key was absent before. -/
theorem enqueue_count_create (eid : String) (k : String × String) :
    ∀ (deps : List Deployment) (t : List CompilationRow),
    countCompKey t k = 0 →
    (∃ d ∈ deps, (mkCompilationRow eid d).key = k) →
    countCompKey (enqueueCompilations eid deps t) k = 1 := by
  intro deps
  induction deps with
  | nil =>
    rintro t h ⟨d, hd, _⟩
    exact absurd hd (List.not_mem_nil d)
  | cons d rest ih =>
    rintro t h ⟨d', hd', hk'⟩
    show countCompKey
      (enqueueCompilations eid rest (insertCompilation t (mkCompilationRow eid d))) k = 1
    by_cases hdk : (mkCompilationRow eid d).key = k
    · exact enqueue_count_one eid k rest _
        (insertCompilation_count_hit t _ k h hdk)
    · rcases List.mem_cons.mp hd' with rfl | hmem
      · exact absurd hk' hdk
      · exact ih _ (insertCompilation_count_zero t _ k h hdk) ⟨d', hmem, hk'⟩

/-- C7: two deployments of the same experiment with equal
`(environment_definition, pipeline_blob, architecture)` triples determine
the same `(experiment_id, compilation_id)` key — `compilation_id` being
the digest of environment + pipeline + architecture — and after the
prepare fan-out the `Compilations` table holds exactly one row under that
key, shared by both deployments. -/
theorem compilation_sharing (eid : String) (deps : List Deployment)
    (table : List CompilationRow) (d₁ d₂ : Deployment)
    (h₁ : d₁ ∈ deps) (h₂ : d₂ ∈ deps)
    (henv : d₁.environment_definition = d₂.environment_definition)
    (hpip : d₁.pipeline = d₂.pipeline)
    (harch : d₁.architecture = d₂.architecture)
    (hfresh : countCompKey table (mkCompilationRow eid d₁).key = 0) :
    (mkCompilationRow eid d₁).key = (mkCompilationRow eid d₂).key ∧
    countCompKey (enqueueCompilations eid deps table)
      (mkCompilationRow eid d₁).key = 1 := by
  constructor
  · simp [mkCompilationRow, CompilationRow.key, compilation_id_of, henv,
      hpip, harch]
  · exact enqueue_count_create eid _ deps table hfresh ⟨d₁, h₁, rfl⟩

/-- Witness for C7: two deployments on different nodes with the same
environment, pipeline and architecture share one compilation row. -/
theorem compilation_sharing_witness :
    (mkCompilationRow "exp1"
        ⟨"node1", "docker", "envdef", "pblob", "linux/amd64"⟩).key =
      (mkCompilationRow "exp1"
        ⟨"node2", "docker", "envdef", "pblob", "linux/amd64"⟩).key ∧
    countCompKey
      (enqueueCompilations "exp1"
        [⟨"node1", "docker", "envdef", "pblob", "linux/amd64"⟩,
         ⟨"node2", "docker", "envdef", "pblob", "linux/amd64"⟩] [])
      (mkCompilationRow "exp1"
        ⟨"node1", "docker", "envdef", "pblob", "linux/amd64"⟩).key = 1 :=
  compilation_sharing "exp1"
    [⟨"node1", "docker", "envdef", "pblob", "linux/amd64"⟩,
     ⟨"node2", "docker", "envdef", "pblob", "linux/amd64"⟩] []
    ⟨"node1", "docker", "envdef", "pblob", "linux/amd64"⟩
    ⟨"node2", "docker", "envdef", "pblob", "linux/amd64"⟩
    (by simp) (by simp) rfl rfl rfl rfl

/-- A key is locked exactly when it occurs among the table's keys. -/
theorem isLocked_iff_mem_keys (locks : List LockRow) (k : String × String) :
    isLocked locks k = true ↔ k ∈ locks.map LockRow.key := by
  rw [isLocked, findLock, List.find?_isSome]
  constructor
  · rintro ⟨r, hr, hp⟩
    have h₁ : r.node_name = k.1 ∧ r.connector = k.2 := by simpa using hp
    refine List.mem_map.mpr ⟨r, hr, ?_⟩
    rw [LockRow.key, h₁.1, h₁.2]
  · intro h
    obtain ⟨r, hr, hk⟩ := List.mem_map.mp h
    refine ⟨r, hr, ?_⟩
    rw [LockRow.key] at hk
    have h₁ : k.1 = r.node_name := by rw [← hk]
    have h₂ : k.2 = r.connector := by rw [← hk]
    simp [h₁, h₂]

/-- A key is unlocked exactly when it is absent from the table's keys. -/
theorem isLocked_false_iff (locks : List LockRow) (k : String × String) :
    isLocked locks k = false ↔ k ∉ locks.map LockRow.key := by
  rw [← isLocked_iff_mem_keys]
  cases isLocked locks k <;> simp

/-- The keys of the freshly inserted rows are the granted keys. -/
theorem freshRows_keys (u : String) (ks : List (String × String)) :
    (freshRows u ks).map LockRow.key = ks := by
  rw [freshRows, List.map_map]
  have h : (LockRow.key ∘ fun k : String × String =>
      (⟨k.1, k.2, some u⟩ : LockRow)) = id := funext fun k => Prod.mk.eta
  rw [h, List.map_id]

/-- The row inserted for a granted key is among the fresh rows. -/
theorem freshRows_mem (u : String) (ks : List (String × String))
    (k : String × String) (h : k ∈ ks) :
    (⟨k.1, k.2, some u⟩ : LockRow) ∈ freshRows u ks :=
  List.mem_map.mpr ⟨k, h, rfl⟩

/-- Lockedness across table concatenation. -/
theorem isLocked_append_iff (l₁ l₂ : List LockRow) (k : String × String) :
    isLocked (l₁ ++ l₂) k = true ↔
      isLocked l₁ k = true ∨ isLocked l₂ k = true := by
  simp [isLocked_iff_mem_keys, List.map_append]

/-- Unlockedness across table concatenation. -/
theorem isLocked_append_false_iff (l₁ l₂ : List LockRow)
    (k : String × String) :
    isLocked (l₁ ++ l₂) k = false ↔
      isLocked l₁ k = false ∧ isLocked l₂ k = false := by
  simp [isLocked_false_iff, List.map_append, not_or]

/-- A freshly appended row locks its own key. -/
theorem isLocked_insert_self (locks : List LockRow) (k : String × String)
    (u : String) :
    isLocked (locks ++ [⟨k.1, k.2, some u⟩]) k = true := by
  rw [isLocked_iff_mem_keys, List.map_append]
  simp [LockRow.key]

/-- Appending a row for a different key does not change lockedness. -/
theorem isLocked_append_single_ne (locks : List LockRow)
    (k k' : String × String) (u : String) (hne : k' ≠ k) :
    isLocked (locks ++ [⟨k.1, k.2, some u⟩]) k' = isLocked locks k' := by
  cases hv : isLocked locks k'
  · have h₁ := (isLocked_false_iff locks k').mp hv
    rw [isLocked_false_iff, List.map_append]
    simp only [List.mem_append, not_or]
    refine ⟨h₁, ?_⟩
    simp [LockRow.key, hne]
  · exact (isLocked_append_iff locks _ k').mpr (Or.inl hv)

/-- A lock holder's row witnesses that the key is locked. -/
theorem heldBy_isLocked (locks : List LockRow) (k : String × String)
    (u : String) (h : heldBy locks k u) : isLocked locks k = true := by
  rw [isLocked_iff_mem_keys]
  refine List.mem_map.mpr ⟨_, h, ?_⟩
  simp [LockRow.key]

/-- The behaviour of the sequential lock-claiming pass: it returns the
input conflicts and acquired lists extended by, respectively, the
requested keys it found locked and the requested keys it granted; the
granted keys were free, are pairwise distinct, and their rows are
appended to the table; every request is either granted or a conflict; and
on duplicate-free requests the conflicts are exactly the requests that
were already locked. -/
theorem claimLocksGo_spec (u : String) :
    ∀ (reqs : List (String × String)) (locks : List LockRow)
      (acquired conflicts : List (String × String)),
    ∃ fresh confl,
      claimLocksGo u reqs locks acquired conflicts =
        (conflicts ++ confl, acquired ++ fresh, locks ++ freshRows u fresh) ∧
      (∀ k ∈ fresh, isLocked locks k = false) ∧
      fresh.Nodup ∧
      (∀ k ∈ reqs, k ∈ fresh ∨ k ∈ confl) ∧
      (∀ k ∈ confl, k ∈ reqs) ∧
      (reqs.Nodup → confl = reqs.filter (fun k => isLocked locks k)) := by
  intro reqs
  induction reqs with
  | nil =>
    intro locks acquired conflicts
    refine ⟨[], [], ?_, ?_, ?_, ?_, ?_, ?_⟩ <;>
      simp [claimLocksGo, freshRows]
  | cons k rest ih =>
    intro locks acquired conflicts
    by_cases hk : isLocked locks k = true
    · obtain ⟨fresh, confl, heq, hfree, hnd, hcov, hsub, hfil⟩ :=
        ih locks acquired (conflicts ++ [k])
      refine ⟨fresh, k :: confl, ?_, hfree, hnd, ?_, ?_, ?_⟩
      · rw [claimLocksGo, if_pos hk, heq]
        simp
      · intro k' hk'
        rcases List.mem_cons.mp hk' with rfl | hmem
        · exact Or.inr (List.mem_cons_self _ _)
        · rcases hcov k' hmem with h | h
          · exact Or.inl h
          · exact Or.inr (List.mem_cons_of_mem _ h)
      · intro k' hk'
        rcases List.mem_cons.mp hk' with rfl | hmem
        · exact List.mem_cons_self _ _
        · exact List.mem_cons_of_mem _ (hsub k' hmem)
      · intro hnd'
        rw [List.filter_cons_of_pos (by simpa using hk),
          hfil (List.nodup_cons.mp hnd').2]
    · have hkf : isLocked locks k = false := by
        cases hv : isLocked locks k
        · rfl
        · exact absurd hv hk
      obtain ⟨fresh, confl, heq, hfree, hnd, hcov, hsub, hfil⟩ :=
        ih (locks ++ [⟨k.1, k.2, some u⟩]) (acquired ++ [k]) conflicts
      refine ⟨k :: fresh, confl, ?_, ?_, ?_, ?_, ?_, ?_⟩
      · rw [claimLocksGo, if_neg (by simp [hkf]), heq]
        simp [freshRows]
      · intro k' hk'
        rcases List.mem_cons.mp hk' with rfl | hmem
        · exact hkf
        · exact ((isLocked_append_false_iff locks _ k').mp (hfree k' hmem)).1
      · refine List.nodup_cons.mpr ⟨?_, hnd⟩
        intro hmem
        have h₁ := hfree k hmem
        rw [isLocked_insert_self locks k u] at h₁
        cases h₁
      · intro k' hk'
        rcases List.mem_cons.mp hk' with rfl | hmem
        · exact Or.inl (List.mem_cons_self _ _)
        · rcases hcov k' hmem with h | h
          · exact Or.inl (List.mem_cons_of_mem _ h)
          · exact Or.inr h
      · intro k' hk'
        exact List.mem_cons_of_mem _ (hsub k' hk')
      · intro hnd'
        have hkr : k ∉ rest := (List.nodup_cons.mp hnd').1
        rw [List.filter_cons_of_neg (by simp [hkf]),
          hfil (List.nodup_cons.mp hnd').2]
        refine List.filter_congr ?_
        intro k' hk'
        have hne : k' ≠ k := fun h => hkr (h ▸ hk')
        exact isLocked_append_single_ne locks k k' u hne

/-- Releasing exactly the freshly granted keys restores the original
table: the rollback of a partially failed claim loses nothing and keeps
nothing. -/
theorem releaseKeys_restore (u : String) (ks : List (String × String))
    (locks : List LockRow) (hfree : ∀ k ∈ ks, isLocked locks k = false) :
    releaseKeys ks (locks ++ freshRows u ks) = locks := by
  rw [releaseKeys, List.filter_append]
  have h₁ : locks.filter (fun r => decide (r.key ∉ ks)) = locks := by
    apply List.filter_eq_self.mpr
    intro r hr
    simp only [decide_eq_true_eq]
    intro hmem
    have hf := hfree r.key hmem
    rw [isLocked_false_iff] at hf
    exact hf (List.mem_map.mpr ⟨r, hr, rfl⟩)
  have h₂ : (freshRows u ks).filter (fun r => decide (r.key ∉ ks)) = [] := by
    apply List.filter_eq_nil_iff.mpr
    intro r hr
    obtain ⟨k, hkmem, rfl⟩ := List.mem_map.mp hr
    have hkey : (⟨k.1, k.2, some u⟩ : LockRow).key = k := by
      rw [LockRow.key]
    simp [hkey, hkmem]
  rw [h₁, h₂, List.append_nil]

/-- A successful `claim_locks` call: every requested key was free before,
every requested key is afterwards locked and held by the caller, existing
locks are untouched, and the primary-key constraint is preserved. -/
theorem claim_locks_success (u : String) (reqs : List (String × String))
    (locks locks' : List LockRow)
    (h : claim_locks u reqs locks = ([], locks')) :
    (∀ k ∈ reqs, isLocked locks k = false) ∧
    (∀ k ∈ reqs, heldBy locks' k u) ∧
    (∀ k, isLocked locks k = true → isLocked locks' k = true) ∧
    (lockKeysNodup locks → lockKeysNodup locks') := by
  obtain ⟨fresh, confl, heq, hfree, hnd, hcov, hsub, hfil⟩ :=
    claimLocksGo_spec u reqs locks [] []
  rw [claim_locks, heq, List.nil_append, List.nil_append] at h
  have h' : (if confl.isEmpty then
        (([] : List (String × String)), locks ++ freshRows u fresh)
      else (confl, releaseKeys fresh (locks ++ freshRows u fresh))) =
      (([] : List (String × String)), locks') := h
  by_cases hc : confl.isEmpty
  · have hcnil : confl = [] := List.isEmpty_iff.mp hc
    rw [if_pos hc] at h'
    have hlocks : locks' = locks ++ freshRows u fresh :=
      (congrArg Prod.snd h').symm
    have hmemf : ∀ k ∈ reqs, k ∈ fresh := by
      intro k hk
      rcases hcov k hk with hm | hm
      · exact hm
      · rw [hcnil] at hm
        exact absurd hm (List.not_mem_nil k)
    refine ⟨fun k hk => hfree k (hmemf k hk), ?_, ?_, ?_⟩
    · intro k hk
      rw [heldBy, hlocks]
      exact List.mem_append_right _ (freshRows_mem u fresh k (hmemf k hk))
    · intro k hk
      rw [hlocks]
      exact (isLocked_append_iff _ _ k).mpr (Or.inl hk)
    · intro hpk
      rw [hlocks, lockKeysNodup, List.map_append, freshRows_keys,
        List.nodup_append]
      refine ⟨hpk, hnd, ?_⟩
      intro a ha hb
      have hf := hfree a hb
      rw [isLocked_false_iff] at hf
      exact hf ha
  · rw [if_neg hc] at h'
    have hbad : confl = [] := congrArg Prod.fst h'
    rw [hbad] at hc
    exact absurd rfl hc

/-- A failed `claim_locks` call: the table is restored exactly, and (on
duplicate-free requests) the returned conflicts are exactly the requested
keys that were already locked. -/
theorem claim_locks_failure (u : String) (reqs : List (String × String))
    (locks : List LockRow) (hnd : reqs.Nodup)
    (h : (claim_locks u reqs locks).1 ≠ []) :
    (claim_locks u reqs locks).2 = locks ∧
    (claim_locks u reqs locks).1 =
      reqs.filter (fun k => isLocked locks k) := by
  obtain ⟨fresh, confl, heq, hfree, hndf, hcov, hsub, hfil⟩ :=
    claimLocksGo_spec u reqs locks [] []
  rw [claim_locks, heq, List.nil_append, List.nil_append] at h ⊢
  have h' : (if confl.isEmpty then
        (([] : List (String × String)), locks ++ freshRows u fresh)
      else (confl, releaseKeys fresh (locks ++ freshRows u fresh))).1 ≠
      [] := h
  show (if confl.isEmpty then
        (([] : List (String × String)), locks ++ freshRows u fresh)
      else (confl, releaseKeys fresh (locks ++ freshRows u fresh))).2 =
      locks ∧
    (if confl.isEmpty then
        (([] : List (String × String)), locks ++ freshRows u fresh)
      else (confl, releaseKeys fresh (locks ++ freshRows u fresh))).1 =
      reqs.filter (fun k => isLocked locks k)
  by_cases hc : confl.isEmpty
  · rw [if_pos hc] at h'
    exact absurd rfl h'
  · rw [if_neg hc]
    exact ⟨releaseKeys_restore u fresh locks hfree, hfil hnd⟩

/-- C3: `claim_locks` is all-or-none — if every requested key is granted
the caller holds a lock row for each of them; on any conflict the call
fails, the lock table is left exactly as it was (locks taken during the
pass are released), and the conflicting keys are returned; and any
requested key that is already locked forces the failure. -/
theorem claim_locks_all_or_none (u : String)
    (reqs : List (String × String)) (locks : List LockRow)
    (hnd : reqs.Nodup) :
    ((claim_locks u reqs locks).1 = [] →
      ∀ k ∈ reqs, heldBy (claim_locks u reqs locks).2 k u) ∧
    ((claim_locks u reqs locks).1 ≠ [] →
      (claim_locks u reqs locks).2 = locks ∧
      (claim_locks u reqs locks).1 =
        reqs.filter (fun k => isLocked locks k)) ∧
    ((∃ k ∈ reqs, isLocked locks k = true) →
      (claim_locks u reqs locks).1 ≠ []) := by
  refine ⟨?_, claim_locks_failure u reqs locks hnd, ?_⟩
  · intro hempty
    have hres : claim_locks u reqs locks =
        ([], (claim_locks u reqs locks).2) := by
      rw [← hempty]
    exact (claim_locks_success u reqs locks _ hres).2.1
  · rintro ⟨k₀, hk₀, hlock⟩ hempty
    have hres : claim_locks u reqs locks =
        ([], (claim_locks u reqs locks).2) := by
      rw [← hempty]
    have hfree := (claim_locks_success u reqs locks _ hres).1 k₀ hk₀
    rw [hlock] at hfree
    cases hfree

/-- Witness for C3: a request set conflicting on one node fails and
leaves the table unchanged; a free request set is granted to the caller. -/
theorem claim_locks_all_or_none_witness :
    (claim_locks "alice" [("node1", "docker"), ("node2", "docker")]
        [⟨"node1", "docker", some "bob"⟩]).2 =
      [⟨"node1", "docker", some "bob"⟩] ∧
    heldBy (claim_locks "alice" [("node1", "docker")] []).2
      ("node1", "docker") "alice" :=
  ⟨((claim_locks_all_or_none "alice"
        [("node1", "docker"), ("node2", "docker")]
        [⟨"node1", "docker", some "bob"⟩] (by decide)).2.1
      ((claim_locks_all_or_none "alice"
          [("node1", "docker"), ("node2", "docker")]
          [⟨"node1", "docker", some "bob"⟩] (by decide)).2.2
        ⟨("node1", "docker"), by decide, by decide⟩)).1,
   (claim_locks_all_or_none "alice" [("node1", "docker")] []
      (by decide)).1 (by decide) ("node1", "docker") (by decide)⟩

/-- Reading the experiment map at the updated id. -/
theorem setExp_self (exps : String → Option MExp) (id : String) (e : MExp) :
    setExp exps id e id = some e := by
  simp [setExp]

/-- Reading the experiment map at any other id. -/
theorem setExp_ne (exps : String → Option MExp) (id : String) (e : MExp)
    (id' : String) (h : id' ≠ id) : setExp exps id e id' = exps id' := by
  simp [setExp, h]

/-- A status that is neither `CREATED` nor `FINISHED` is bound. -/
theorem bound_of_status_ne (e : MExp) (h₁ : e.status ≠ .CREATED)
    (h₂ : e.status ≠ .FINISHED) : e.bound := by
  cases hst : e.status with
  | CREATED => exact absurd hst h₁
  | PREPARING => exact Or.inl hst
  | READY => exact Or.inr (Or.inl hst)
  | RUNNING => exact Or.inr (Or.inr hst)
  | FINISHED => exact absurd hst h₂

/-- A `CREATED` experiment is not bound. -/
theorem not_bound_created (e : MExp) (h : e.status = .CREATED) :
    ¬ e.bound := by
  rintro (h' | h' | h') <;> rw [h] at h' <;> cases h'

/-- A `FINISHED` experiment is not bound. -/
theorem not_bound_finished (e : MExp) (h : e.status = .FINISHED) :
    ¬ e.bound := by
  rintro (h' | h' | h') <;> rw [h] at h' <;> cases h'

/-- Releasing keys preserves the table's primary-key constraint. -/
theorem releaseKeys_pk (ks : List (String × String)) (locks : List LockRow)
    (h : lockKeysNodup locks) : lockKeysNodup (releaseKeys ks locks) :=
  List.Nodup.sublist (List.Sublist.map _ (List.filter_sublist _)) h

/-- A locked key outside the released set stays locked. -/
theorem isLocked_releaseKeys (ks : List (String × String))
    (locks : List LockRow) (k : String × String)
    (h : isLocked locks k = true) (hk : k ∉ ks) :
    isLocked (releaseKeys ks locks) k = true := by
  rw [isLocked_iff_mem_keys] at h ⊢
  obtain ⟨r, hr, hkey⟩ := List.mem_map.mp h
  refine List.mem_map.mpr ⟨r, ?_, hkey⟩
  rw [releaseKeys]
  refine List.mem_filter.mpr ⟨hr, ?_⟩
  simp [hkey, hk]

/-- Every mediator/processor/infrastructure operation preserves the
lock-exclusivity invariant. -/
theorem mstep_preserves (s s' : MState) (hstep : MStep s s')
    (inv : LocksExclusive s) : LocksExclusive s' := by
  cases hstep with
  | submit ide u nodes hnone =>
    refine ⟨inv.pk, ?_, ?_⟩
    · intro id₀ e₀ hs hb k hk
      by_cases hid : id₀ = ide
      · subst hid
        simp only [setExp_self] at hs
        injection hs with he
        rw [← he] at hb
        exact absurd hb (not_bound_created _ rfl)
      · simp only [setExp_ne _ _ _ _ hid] at hs
        exact inv.covered id₀ e₀ hs hb k hk
    · intro id₁ id₂ e₁ e₂ k h₁ h₂ hb₁ hb₂ hk₁ hk₂
      by_cases hi₁ : id₁ = ide
      · subst hi₁
        simp only [setExp_self] at h₁
        injection h₁ with he
        rw [← he] at hb₁
        exact absurd hb₁ (not_bound_created _ rfl)
      · by_cases hi₂ : id₂ = ide
        · subst hi₂
          simp only [setExp_self] at h₂
          injection h₂ with he
          rw [← he] at hb₂
          exact absurd hb₂ (not_bound_created _ rfl)
        · simp only [setExp_ne _ _ _ _ hi₁] at h₁
          simp only [setExp_ne _ _ _ _ hi₂] at h₂
          exact inv.exclusive id₁ id₂ e₁ e₂ k h₁ h₂ hb₁ hb₂ hk₁ hk₂
  | prepare ide e locks' hsome hst hclaim =>
    obtain ⟨hfreeReqs, hheld, hmono, hpk⟩ :=
      claim_locks_success e.username e.nodes s.locks locks' hclaim
    refine ⟨hpk inv.pk, ?_, ?_⟩
    · intro id₀ e₀ hs hb k hk
      by_cases hid : id₀ = ide
      · subst hid
        simp only [setExp_self] at hs
        injection hs with he
        rw [← he] at hk
        exact heldBy_isLocked locks' k e.username (hheld k hk)
      · simp only [setExp_ne _ _ _ _ hid] at hs
        exact hmono k (inv.covered id₀ e₀ hs hb k hk)
    · intro id₁ id₂ e₁ e₂ k h₁ h₂ hb₁ hb₂ hk₁ hk₂
      by_cases hi₁ : id₁ = ide <;> by_cases hi₂ : id₂ = ide
      · rw [hi₁, hi₂]
      · subst hi₁
        simp only [setExp_self] at h₁
        simp only [setExp_ne _ _ _ _ hi₂] at h₂
        injection h₁ with he
        rw [← he] at hk₁
        have hfree := hfreeReqs k hk₁
        have hlock := inv.covered id₂ e₂ h₂ hb₂ k hk₂
        rw [hfree] at hlock
        cases hlock
      · subst hi₂
        simp only [setExp_self] at h₂
        simp only [setExp_ne _ _ _ _ hi₁] at h₁
        injection h₂ with he
        rw [← he] at hk₂
        have hfree := hfreeReqs k hk₂
        have hlock := inv.covered id₁ e₁ h₁ hb₁ k hk₁
        rw [hfree] at hlock
        cases hlock
      · simp only [setExp_ne _ _ _ _ hi₁] at h₁
        simp only [setExp_ne _ _ _ _ hi₂] at h₂
        exact inv.exclusive id₁ id₂ e₁ e₂ k h₁ h₂ hb₁ hb₂ hk₁ hk₂
  | allPrepared ide e hsome hst =>
    refine ⟨inv.pk, ?_, ?_⟩
    · intro id₀ e₀ hs hb k hk
      by_cases hid : id₀ = ide
      · subst hid
        simp only [setExp_self] at hs
        injection hs with he
        rw [← he] at hk
        exact inv.covered id₀ e hsome (Or.inl hst) k hk
      · simp only [setExp_ne _ _ _ _ hid] at hs
        exact inv.covered id₀ e₀ hs hb k hk
    · intro id₁ id₂ e₁ e₂ k h₁ h₂ hb₁ hb₂ hk₁ hk₂
      by_cases hi₁ : id₁ = ide <;> by_cases hi₂ : id₂ = ide
      · rw [hi₁, hi₂]
      · subst hi₁
        simp only [setExp_self] at h₁
        simp only [setExp_ne _ _ _ _ hi₂] at h₂
        injection h₁ with he
        rw [← he] at hk₁
        exact inv.exclusive id₁ id₂ e e₂ k hsome h₂ (Or.inl hst) hb₂ hk₁ hk₂
      · subst hi₂
        simp only [setExp_self] at h₂
        simp only [setExp_ne _ _ _ _ hi₁] at h₁
        injection h₂ with he
        rw [← he] at hk₂
        exact inv.exclusive id₁ id₂ e₁ e k h₁ hsome hb₁ (Or.inl hst) hk₁ hk₂
      · simp only [setExp_ne _ _ _ _ hi₁] at h₁
        simp only [setExp_ne _ _ _ _ hi₂] at h₂
        exact inv.exclusive id₁ id₂ e₁ e₂ k h₁ h₂ hb₁ hb₂ hk₁ hk₂
  | start ide e hsome hst =>
    refine ⟨inv.pk, ?_, ?_⟩
    · intro id₀ e₀ hs hb k hk
      by_cases hid : id₀ = ide
      · subst hid
        simp only [setExp_self] at hs
        injection hs with he
        rw [← he] at hk
        exact inv.covered id₀ e hsome (Or.inr (Or.inl hst)) k hk
      · simp only [setExp_ne _ _ _ _ hid] at hs
        exact inv.covered id₀ e₀ hs hb k hk
    · intro id₁ id₂ e₁ e₂ k h₁ h₂ hb₁ hb₂ hk₁ hk₂
      by_cases hi₁ : id₁ = ide <;> by_cases hi₂ : id₂ = ide
      · rw [hi₁, hi₂]
      · subst hi₁
        simp only [setExp_self] at h₁
        simp only [setExp_ne _ _ _ _ hi₂] at h₂
        injection h₁ with he
        rw [← he] at hk₁
        exact inv.exclusive id₁ id₂ e e₂ k hsome h₂ (Or.inr (Or.inl hst))
          hb₂ hk₁ hk₂
      · subst hi₂
        simp only [setExp_self] at h₂
        simp only [setExp_ne _ _ _ _ hi₁] at h₁
        injection h₂ with he
        rw [← he] at hk₂
        exact inv.exclusive id₁ id₂ e₁ e k h₁ hsome hb₁
          (Or.inr (Or.inl hst)) hk₁ hk₂
      · simp only [setExp_ne _ _ _ _ hi₁] at h₁
        simp only [setExp_ne _ _ _ _ hi₂] at h₂
        exact inv.exclusive id₁ id₂ e₁ e₂ k h₁ h₂ hb₁ hb₂ hk₁ hk₂
  | finishRelease ide e hsome hnc hnf =>
    have hbe : e.bound := bound_of_status_ne e hnc hnf
    refine ⟨releaseKeys_pk _ _ inv.pk, ?_, ?_⟩
    · intro id₀ e₀ hs hb k hk
      by_cases hid : id₀ = ide
      · subst hid
        simp only [setExp_self] at hs
        injection hs with he
        rw [← he] at hb
        exact absurd hb (not_bound_finished _ rfl)
      · simp only [setExp_ne _ _ _ _ hid] at hs
        have hlock := inv.covered id₀ e₀ hs hb k hk
        refine isLocked_releaseKeys _ _ _ hlock ?_
        intro hmem
        exact hid (inv.exclusive id₀ ide e₀ e k hs hsome hb hbe hk hmem)
    · intro id₁ id₂ e₁ e₂ k h₁ h₂ hb₁ hb₂ hk₁ hk₂
      by_cases hi₁ : id₁ = ide
      · subst hi₁
        simp only [setExp_self] at h₁
        injection h₁ with he
        rw [← he] at hb₁
        exact absurd hb₁ (not_bound_finished _ rfl)
      · by_cases hi₂ : id₂ = ide
        · subst hi₂
          simp only [setExp_self] at h₂
          injection h₂ with he
          rw [← he] at hb₂
          exact absurd hb₂ (not_bound_finished _ rfl)
        · simp only [setExp_ne _ _ _ _ hi₁] at h₁
          simp only [setExp_ne _ _ _ _ hi₂] at h₂
          exact inv.exclusive id₁ id₂ e₁ e₂ k h₁ h₂ hb₁ hb₂ hk₁ hk₂
  | cancelCreated ide e hsome hst =>
    refine ⟨inv.pk, ?_, ?_⟩
    · intro id₀ e₀ hs hb k hk
      by_cases hid : id₀ = ide
      · subst hid
        simp only [setExp_self] at hs
        injection hs with he
        rw [← he] at hb
        exact absurd hb (not_bound_finished _ rfl)
      · simp only [setExp_ne _ _ _ _ hid] at hs
        exact inv.covered id₀ e₀ hs hb k hk
    · intro id₁ id₂ e₁ e₂ k h₁ h₂ hb₁ hb₂ hk₁ hk₂
      by_cases hi₁ : id₁ = ide
      · subst hi₁
        simp only [setExp_self] at h₁
        injection h₁ with he
        rw [← he] at hb₁
        exact absurd hb₁ (not_bound_finished _ rfl)
      · by_cases hi₂ : id₂ = ide
        · subst hi₂
          simp only [setExp_self] at h₂
          injection h₂ with he
          rw [← he] at hb₂
          exact absurd hb₂ (not_bound_finished _ rfl)
        · simp only [setExp_ne _ _ _ _ hi₁] at h₁
          simp only [setExp_ne _ _ _ _ hi₂] at h₂
          exact inv.exclusive id₁ id₂ e₁ e₂ k h₁ h₂ hb₁ hb₂ hk₁ hk₂

/-- C2: in every reachable director state the `Locks` table has at most
one row per `(node_name, connector)` key, every bound (prepared,
non-terminal) experiment's nodes carry lock rows, and each node key is
bound to at most one non-terminal experiment; every operation touching
locks (submit, prepare, status advancement, finish-with-release, cancel)
preserves this exclusivity. -/
theorem locks_exclusive_invariant (s : MState) (h : MReachable s) :
    LocksExclusive s := by
  induction h with
  | init =>
    refine ⟨by simp [MState.init, lockKeysNodup], ?_, ?_⟩
    · intro id e hs
      rw [MState.init] at hs
      cases hs
    · intro id₁ id₂ e₁ e₂ k h₁ h₂
      rw [MState.init] at h₁
      cases h₁
  | step s s' hr hstep ih => exact mstep_preserves s s' hstep ih

/-- Witness for C2 at a concrete reachable state with one submitted
experiment. -/
theorem locks_exclusive_invariant_witness :
    LocksExclusive ⟨[], setExp (fun _ => none) "exp1"
      ⟨"exp1", "alice", .CREATED, [("node1", "docker")]⟩⟩ :=
  locks_exclusive_invariant _
    (MReachable.step _ _ MReachable.init
      (MStep.submit MState.init "exp1" "alice" [("node1", "docker")] rfl))

end Netunicorn
